import Mathlib

/-!
Verification of the H2OHL water-quality dashboard's core data pipeline
(src/quali.py, with the older variant src/BACKUPgrenzwert.py).

Modelling conventions:
* Python floats carrying measured values and limits are modelled as exact
  rationals (`ℚ`); a missing value (`NaN`, detected by `pd.isna`) is modelled
  as `none` in `Option ℚ`.
* Python strings are modelled as `String` / `List Char`.  The source file's
  literal character sequences (e.g. the degree token `¬∞` and the oxygen
  parameter name `Sauerstoffs√§ttigung`) are embedded verbatim.
* Python `None` for an optional string argument is `none : Option String`.
* A pandas `DataFrame` of measurements is modelled as a `List Row`.
* A Python `dict` is modelled as an association list where insertion with an
  existing key overwrites that key's value (`dictInsert` / `dictGet`).
-/

/-- Python `s.replace(x, y)` for a single-character pattern `x` and a
single-character replacement `y` replaces every occurrence of the character,
i.e. it is a per-character map. -/
def replaceChar (x y : Char) (l : List Char) : List Char :=
  l.map fun c => if c = x then y else c

/-- Python `s.replace(']', '')` (src/quali.py line 191): every `]` character is
deleted. -/
def removeBracketClose (l : List Char) : List Char :=
  l.filter fun c => !(c = ']' : Bool)

/-- Python `s.replace('¬∞', 'deg')` (src/quali.py line 191): the two-character
degree token `¬∞` (as it appears in the source file) is replaced by `deg`,
scanning left to right without overlap, exactly as `str.replace` does. -/
def replaceDeg : List Char → List Char
  | [] => []
  | [c] => [c]
  | c :: d :: rest =>
    if c = '¬' ∧ d = '∞' then 'd' :: 'e' :: 'g' :: replaceDeg rest
    else c :: replaceDeg (d :: rest)

/-- Python `re.sub(r'_+', '_', s)` (src/quali.py line 194): every maximal run
of underscores is collapsed to a single underscore. -/
def squeezeUnderscores : List Char → List Char
  | [] => []
  | [c] => [c]
  | c :: d :: rest =>
    if c = '_' ∧ d = '_' then squeezeUnderscores (d :: rest)
    else c :: squeezeUnderscores (d :: rest)

/-- Python `s.strip('_')` (src/quali.py line 194): drop leading and trailing
underscores. -/
def stripUnderscores (l : List Char) : List Char :=
  (((l.dropWhile fun c => c = '_').reverse.dropWhile fun c => c = '_').reverse)

/-- The column-name normalization from `get_measurements`
(src/quali.py lines 191–194) and `get_limit_values` (lines 24–27):
`col.replace('[', '_').replace(']', '').replace('¬∞', 'deg').replace('/', '_')
.replace(' ', '_')`, then `re.sub(r'_+', '_', ...)` and `.strip('_')`. -/
def cleanName (l : List Char) : List Char :=
  stripUnderscores (squeezeUnderscores
    (replaceChar ' ' '_' (replaceChar '/' '_' (replaceDeg
      (removeBracketClose (replaceChar '[' '_' l))))))

/-- `cleanName` on the `String` level. -/
def clean_name (s : String) : String :=
  String.mk (cleanName s.data)

/-- `hasPair a b l` holds iff the two-character sequence `a, b` occurs at
consecutive positions of `l` (i.e. `[a, b]` is an infix of `l`).  Used to state
"no two consecutive underscores" and "does not contain the degree token". -/
def hasPair (a b : Char) : List Char → Bool
  | [] => false
  | [_] => false
  | c :: d :: rest => (c = a ∧ d = b : Bool) || hasPair a b (d :: rest)

/-- Python `pat in s` substring test for strings. -/
def containsSub (pat : List Char) : List Char → Bool
  | [] => pat.isEmpty
  | c :: cs => List.isPrefixOf pat (c :: cs) || containsSub pat cs

/-- The literal parameter name tested in src/quali.py line 121, embedded
verbatim from the source file. -/
def oxygen_token : String := "Sauerstoffs√§ttigung"

/-- The guard `measurement_name and "Sauerstoffs√§ttigung" in measurement_name`
from src/quali.py line 121: Python `None` and the empty string are falsy, and
`in` is the substring test. -/
def is_oxygen (measurement_name : Option String) : Bool :=
  match measurement_name with
  | none => false
  | some s => !s.isEmpty && containsSub oxygen_token.data s.data

/-- Embeds `get_status_color` (src/quali.py lines 95–135; the
`BACKUPgrenzwert.py` variant, lines 22–38, is the `is_oxygen = false` branch).
`pd.isna` on either argument yields Python `None`, modelled as `none`. -/
def get_status_color (value limit : Option ℚ) (tolerance : ℚ)
    (measurement_name : Option String) : Option String :=
  match value, limit with
  | some v, some l =>
    if is_oxygen measurement_name then
      if l + tolerance < v then some "green"
      else if l < v then some "yellow"
      else some "red"
    else
      if v < l - tolerance then some "green"
      else if v < l then some "yellow"
      else some "red"
  | _, _ => none

/-- Embeds `get_status_display` (src/quali.py lines 577–584), which closes over
the limit and the displayed measurement name and is applied per row value.
The label strings are embedded verbatim from the source file. -/
def get_status_display (limit : Option ℚ) (measurement_name : Option String)
    (value : Option ℚ) : String :=
  let status_color := get_status_color value limit (1/20) measurement_name
  if status_color = some "green" then "üü¢ OK"
  else if status_color = some "yellow" then "üü° Warnung"
  else "üî¥ Grenzwert √ºberschritten"

/-- One row of a per-station measurement CSV (src/quali.py `get_measurements`):
station number (`Nummer`), date (`Tag`, modelled as an integer ordinal since
only its total order matters), time-of-day text (`Uhrzeit`) and the numeric
parameter columns (missing entries are `none` after `pd.to_numeric` coercion). -/
structure Row where
  nummer : Int
  tag : Int
  uhrzeit : String
  werte : List (Option ℚ)
deriving DecidableEq

/-- The station filter `df = df[df["Nummer"] == num]`
(src/quali.py line 169). -/
def filterStation (n : Int) (rows : List Row) : List Row :=
  rows.filter fun r => r.nummer == n

/-- `df.set_index("Tag").sort_index()` (src/quali.py line 172): stable
insertion sort of the rows by date. -/
def insertByTag (r : Row) : List Row → List Row
  | [] => [r]
  | x :: xs => if r.tag ≤ x.tag then r :: x :: xs else x :: insertByTag r xs

/-- Sorting of the station-filtered rows by their date index. -/
def sortByTag : List Row → List Row
  | [] => []
  | r :: rs => insertByTag r (sortByTag rs)

/-- The date-window mask
`(measurements.index >= start_ts) & (measurements.index <= end_ts)` and
`filtered = measurements.loc[mask]` (src/quali.py lines 447–448). -/
def filterDateWindow (start_ts end_ts : Int) (rows : List Row) : List Row :=
  rows.filter fun r => decide (start_ts ≤ r.tag) && decide (r.tag ≤ end_ts)

/-- The full station/date pipeline: `get_measurements` keeps rows of station
`n` sorted by date (src/quali.py lines 169–172) and the page then applies the
date-window mask (lines 447–448). -/
def stationDateFilter (n start_ts end_ts : Int) (rows : List Row) : List Row :=
  filterDateWindow start_ts end_ts (sortByTag (filterStation n rows))

/-- Insertion into a Python `dict` modelled as an association list: assigning
to an existing key overwrites its value. -/
def dictInsert (k v : List Char) : List (List Char × List Char) → List (List Char × List Char)
  | [] => [(k, v)]
  | (k', v') :: rest => if k' = k then (k, v) :: rest else (k', v') :: dictInsert k v rest

/-- Lookup in a Python `dict` modelled as an association list. -/
def dictGet (k : List Char) : List (List Char × List Char) → Option (List Char)
  | [] => none
  | (k', v) :: rest => if k' = k then some v else dictGet k rest

/-- The reverse mapping `column_mapping[cleaned] = original_col` built in the
`for col in df.columns` loop of `get_measurements` (src/quali.py lines
182–196); `cols` are the (whitespace-stripped) column headers in order. -/
def column_mapping (cols : List (List Char)) : List (List Char × List Char) :=
  cols.foldl (fun m col => dictInsert (cleanName col) col m) []

/-- Claim C1: with neither input missing, tolerance `t = 0.05 = 1/20` and a
measurement name not designating oxygen saturation, `get_status_color` returns
"green" iff `v < L - t`, "yellow" iff `L - t ≤ v < L`, and "red" iff `v ≥ L`. -/
theorem status_color_default_bands (v l : ℚ) (name : Option String)
    (h : is_oxygen name = false) :
    (get_status_color (some v) (some l) (1/20) name = some "green" ↔ v < l - 1/20) ∧
    (get_status_color (some v) (some l) (1/20) name = some "yellow" ↔ l - 1/20 ≤ v ∧ v < l) ∧
    (get_status_color (some v) (some l) (1/20) name = some "red" ↔ l ≤ v) := by
  have e : get_status_color (some v) (some l) (1/20) name =
      if v < l - 1/20 then some "green" else if v < l then some "yellow" else some "red" := by
    simp [get_status_color, h]
  rw [e]
  split_ifs with h1 h2
  · refine ⟨⟨fun _ => h1, fun _ => rfl⟩, ?_, ?_⟩
    · exact ⟨fun hx => absurd (Option.some.inj hx) (by decide),
        fun hx => absurd h1 (by push_neg; exact hx.1)⟩
    · exact ⟨fun hx => absurd (Option.some.inj hx) (by decide), fun hx => by linarith⟩
  · refine ⟨?_, ⟨fun _ => ⟨not_lt.mp h1, h2⟩, fun _ => rfl⟩, ?_⟩
    · exact ⟨fun hx => absurd (Option.some.inj hx) (by decide), fun hx => absurd hx h1⟩
    · exact ⟨fun hx => absurd (Option.some.inj hx) (by decide), fun hx => by linarith⟩
  · refine ⟨?_, ?_, ⟨fun _ => not_lt.mp h2, fun _ => rfl⟩⟩
    · exact ⟨fun hx => absurd (Option.some.inj hx) (by decide), fun hx => by linarith⟩
    · exact ⟨fun hx => absurd (Option.some.inj hx) (by decide), fun hx => absurd hx.2 h2⟩

/-- Witness for `status_color_default_bands` at `v = 0`, `L = 1`,
`name = none`. -/
theorem status_color_default_bands_witness :
    is_oxygen none = false ∧
    ((get_status_color (some 0) (some 1) (1/20) none = some "green" ↔ (0:ℚ) < 1 - 1/20) ∧
     (get_status_color (some 0) (some 1) (1/20) none = some "yellow" ↔ (1:ℚ) - 1/20 ≤ 0 ∧ (0:ℚ) < 1) ∧
     (get_status_color (some 0) (some 1) (1/20) none = some "red" ↔ (1:ℚ) ≤ 0)) :=
  ⟨rfl, status_color_default_bands 0 1 none rfl⟩

/-- Claim C5: with tolerance `0.05` and default direction, value `12.3` against
limit `13` is "green" (`12.3 < 12.95`), value `12.96` against limit `13` is
"yellow", and value `13.1` against limit `13` is "red". -/
theorem status_color_examples :
    get_status_color (some (123/10)) (some 13) (1/20) none = some "green" ∧
    get_status_color (some (1296/100)) (some 13) (1/20) none = some "yellow" ∧
    get_status_color (some (131/10)) (some 13) (1/20) none = some "red" := by
  refine ⟨?_, ?_, ?_⟩ <;> norm_num [get_status_color, is_oxygen]

theorem get_status_color_not_oxygen (v l t : ℚ) (name : Option String)
    (h : is_oxygen name = false) :
    get_status_color (some v) (some l) t name =
      if v < l - t then some "green" else if v < l then some "yellow" else some "red" := by
  simp [get_status_color, h]

theorem get_status_color_some_cases (v l t : ℚ) (name : Option String) :
    get_status_color (some v) (some l) t name = some "green" ∨
    get_status_color (some v) (some l) t name = some "yellow" ∨
    get_status_color (some v) (some l) t name = some "red" := by
  by_cases hox : is_oxygen name = true <;>
    simp only [get_status_color, hox, if_true, if_false, Bool.not_eq_true] <;>
    split_ifs <;> simp

/-- Claim C2: with neither input missing and tolerance `t = 0.05 = 1/20`,
`get_status_color` follows the inverted direction — "green" iff `v > L + t`,
"yellow" iff `L < v ≤ L + t`, "red" iff `v ≤ L` — exactly when the measurement
name designates the oxygen-saturation parameter, and only then. -/
theorem status_color_oxygen_iff_inverted (name : Option String) :
    is_oxygen name = true ↔
      ∀ v l : ℚ,
        (get_status_color (some v) (some l) (1/20) name = some "green" ↔ l + 1/20 < v) ∧
        (get_status_color (some v) (some l) (1/20) name = some "yellow" ↔ l < v ∧ v ≤ l + 1/20) ∧
        (get_status_color (some v) (some l) (1/20) name = some "red" ↔ v ≤ l) := by
  constructor
  · intro h v l
    have e : get_status_color (some v) (some l) (1/20) name =
        if l + 1/20 < v then some "green" else if l < v then some "yellow" else some "red" := by
      simp [get_status_color, h]
    rw [e]
    split_ifs with h1 h2
    · refine ⟨⟨fun _ => h1, fun _ => rfl⟩, ?_, ?_⟩
      · exact ⟨fun hx => absurd (Option.some.inj hx) (by decide), fun hx => by linarith [hx.2]⟩
      · exact ⟨fun hx => absurd (Option.some.inj hx) (by decide), fun hx => by linarith⟩
    · refine ⟨?_, ⟨fun _ => ⟨h2, not_lt.mp h1⟩, fun _ => rfl⟩, ?_⟩
      · exact ⟨fun hx => absurd (Option.some.inj hx) (by decide), fun hx => absurd hx h1⟩
      · exact ⟨fun hx => absurd (Option.some.inj hx) (by decide), fun hx => by linarith⟩
    · refine ⟨?_, ?_, ⟨fun _ => not_lt.mp h2, fun _ => rfl⟩⟩
      · exact ⟨fun hx => absurd (Option.some.inj hx) (by decide), fun hx => absurd hx h1⟩
      · exact ⟨fun hx => absurd (Option.some.inj hx) (by decide), fun hx => absurd hx.1 h2⟩
  · intro hall
    by_contra hne
    have h : is_oxygen name = false := by
      cases hox : is_oxygen name
      · rfl
      · exact absurd hox hne
    have h5 : ¬ ((1:ℚ)/20 < 0 - 1/20) := by norm_num
    have h6 : ¬ ((1:ℚ)/20 < 0) := by norm_num
    have e : get_status_color (some (1/20)) (some 0) (1/20) name = some "red" := by
      rw [get_status_color_not_oxygen (1/20) 0 (1/20) name h, if_neg h5, if_neg h6]
    have hred := (hall (1/20) 0).2.2
    rw [e] at hred
    have : (1:ℚ)/20 ≤ 0 := hred.mp rfl
    linarith

/-- Claim C3: the classifier's result is always one of green, yellow, red or
the undefined result `none`, and for non-missing inputs (any direction rule,
i.e. any measurement name) exactly one of the three colors is assigned — the
bands partition the value line with no gap and no overlap. -/
theorem status_color_partition :
    ∀ (value limit : Option ℚ) (name : Option String),
      (get_status_color value limit (1/20) name = none ∨
        get_status_color value limit (1/20) name = some "green" ∨
        get_status_color value limit (1/20) name = some "yellow" ∨
        get_status_color value limit (1/20) name = some "red") ∧
      (∀ v l : ℚ, ∃! c : String,
        (c = "green" ∨ c = "yellow" ∨ c = "red") ∧
        get_status_color (some v) (some l) (1/20) name = some c) := by
  intro value limit name
  constructor
  · match value, limit with
    | none, _ => exact Or.inl rfl
    | some v, none => exact Or.inl rfl
    | some v, some l => exact Or.inr (get_status_color_some_cases v l (1/20) name)
  · intro v l
    rcases get_status_color_some_cases v l (1/20) name with h | h | h
    · exact ⟨"green", ⟨Or.inl rfl, h⟩, fun c' hc' => Option.some.inj (hc'.2.symm.trans h)⟩
    · exact ⟨"yellow", ⟨Or.inr (Or.inl rfl), h⟩,
        fun c' hc' => Option.some.inj (hc'.2.symm.trans h)⟩
    · exact ⟨"red", ⟨Or.inr (Or.inr rfl), h⟩,
        fun c' hc' => Option.some.inj (hc'.2.symm.trans h)⟩

/-- Claim C4: `get_status_color` returns the undefined/no-status result `none`
if and only if the value or the limit is missing (`NaN`, modelled as `none`),
for every tolerance and measurement name. -/
theorem status_color_none_iff_missing :
    ∀ (value limit : Option ℚ) (t : ℚ) (name : Option String),
      get_status_color value limit t name = none ↔ value = none ∨ limit = none := by
  intro value limit t name
  match value, limit with
  | none, _ => simp [get_status_color]
  | some v, none => simp [get_status_color]
  | some v, some l =>
    constructor
    · intro h
      rcases get_status_color_some_cases v l t name with h' | h' | h' <;>
        rw [h] at h' <;> simp at h'
    · rintro (h | h) <;> simp at h

/-- Claim C9: in the chart-tooltip status display, whenever `get_status_color`
returns the undefined result `none` (e.g. the row's value is missing),
`get_status_display` falls into the final `else` branch and returns the red
label — undefined status is rendered identically to red. -/
theorem status_display_none_red (limit : Option ℚ) (name : Option String)
    (value : Option ℚ)
    (h : get_status_color value limit (1/20) name = none) :
    get_status_display limit name value = "üî¥ Grenzwert √ºberschritten" := by
  show (if get_status_color value limit (1/20) name = some "green" then "üü¢ OK"
    else if get_status_color value limit (1/20) name = some "yellow" then "üü° Warnung"
    else "üî¥ Grenzwert √ºberschritten") = "üî¥ Grenzwert √ºberschritten"
  rw [h]
  simp

/-- Witness for `status_display_none_red` at a missing value. -/
theorem status_display_none_red_witness :
    get_status_color none (some 1) (1/20) none = none ∧
    get_status_display (some 1) none none = "üî¥ Grenzwert √ºberschritten" :=
  ⟨rfl, status_display_none_red (some 1) none none rfl⟩

theorem insertByTag_perm (r : Row) (l : List Row) :
    List.Perm (insertByTag r l) (r :: l) := by
  induction l with
  | nil => exact List.Perm.refl _
  | cons x xs ih =>
    simp only [insertByTag]
    split_ifs
    · exact List.Perm.refl _
    · exact (ih.cons x).trans (List.Perm.swap r x xs)

theorem sortByTag_perm (l : List Row) : List.Perm (sortByTag l) l := by
  induction l with
  | nil => exact List.Perm.refl _
  | cons r rs ih => exact (insertByTag_perm r (sortByTag rs)).trans (ih.cons r)

theorem mem_stationDateFilter (rows : List Row) (n s e : Int) (r : Row) :
    r ∈ stationDateFilter n s e rows ↔
      r ∈ rows ∧ r.nummer = n ∧ s ≤ r.tag ∧ r.tag ≤ e := by
  unfold stationDateFilter filterDateWindow filterStation
  rw [List.mem_filter, (sortByTag_perm _).mem_iff, List.mem_filter]
  simp [and_assoc]

theorem count_stationDateFilter (rows : List Row) (n s e : Int) (r : Row) :
    (stationDateFilter n s e rows).count r =
      if r.nummer = n ∧ s ≤ r.tag ∧ r.tag ≤ e then rows.count r else 0 := by
  split_ifs with hc
  · obtain ⟨h1, h2, h3⟩ := hc
    unfold stationDateFilter filterDateWindow filterStation
    rw [List.count_filter (by simp [h2, h3]), (sortByTag_perm _).count_eq,
      List.count_filter (by simp [h1])]
  · exact List.count_eq_zero.mpr fun hm => hc ((mem_stationDateFilter rows n s e r).mp hm).2

/-- Claim C8: the station/date filter keeps exactly the rows whose station
number equals `n` and whose date lies in the closed window `[s, e]`: a row is
in the result iff it is such a row of the input, and its multiplicity is
preserved (nothing inside the window for that station is dropped, nothing
outside is kept). -/
theorem station_date_filter_spec (rows : List Row) (n s e : Int) (r : Row) :
    (r ∈ stationDateFilter n s e rows ↔
      r ∈ rows ∧ r.nummer = n ∧ s ≤ r.tag ∧ r.tag ≤ e) ∧
    (stationDateFilter n s e rows).count r =
      if r.nummer = n ∧ s ≤ r.tag ∧ r.tag ≤ e then rows.count r else 0 :=
  ⟨mem_stationDateFilter rows n s e r, count_stationDateFilter rows n s e r⟩

theorem hasPair_cons_cons (a b c d : Char) (l : List Char) :
    hasPair a b (c :: d :: l) = (decide (c = a ∧ d = b) || hasPair a b (d :: l)) := rfl

theorem hasPair_cons_of_ne {a b c : Char} (h : c ≠ a) (l : List Char) :
    hasPair a b (c :: l) = hasPair a b l := by
  cases l with
  | nil => rfl
  | cons y u =>
    rw [hasPair_cons_cons, decide_eq_false (fun hx => h hx.1), Bool.false_or]

theorem hasPair_tail {a b c : Char} {l : List Char}
    (h : hasPair a b (c :: l) = false) : hasPair a b l = false := by
  cases l with
  | nil => rfl
  | cons y u =>
    rw [hasPair_cons_cons, Bool.or_eq_false_iff] at h
    exact h.2

theorem head?_squeeze : ∀ l : List Char, (squeezeUnderscores l).head? = l.head?
  | [] => rfl
  | [c] => rfl
  | c :: d :: rest => by
    rw [squeezeUnderscores]
    split_ifs with h
    · rw [head?_squeeze (d :: rest)]
      simp [h.1, h.2]
    · rfl

theorem mem_of_mem_squeeze {x : Char} : ∀ {l : List Char}, x ∈ squeezeUnderscores l → x ∈ l
  | [], h => h
  | [c], h => h
  | c :: d :: rest, h => by
    rw [squeezeUnderscores] at h
    split_ifs at h with hc
    · exact List.mem_cons_of_mem c (mem_of_mem_squeeze h)
    · rcases List.mem_cons.mp h with h | h
      · exact h ▸ List.mem_cons_self x (d :: rest)
      · exact List.mem_cons_of_mem c (mem_of_mem_squeeze h)

theorem hasPair_squeeze_sub (a b : Char) :
    ∀ l : List Char, hasPair a b (squeezeUnderscores l) = true → hasPair a b l = true
  | [], h => h
  | [c], h => h
  | c :: d :: rest, h => by
    rw [squeezeUnderscores] at h
    split_ifs at h with hc
    · have := hasPair_squeeze_sub a b (d :: rest) h
      rw [hasPair_cons_cons, this, Bool.or_true]
    · have ht := head?_squeeze (d :: rest)
      cases hsq : squeezeUnderscores (d :: rest) with
      | nil =>
        rw [hsq] at h
        exact absurd h (by rw [hasPair]; simp)
      | cons y u =>
        rw [hsq] at h ht
        have hy : y = d := by
          have hyd : some y = some d := ht
          exact Option.some.inj hyd
        rw [hy] at h
        rw [hasPair_cons_cons, Bool.or_eq_true] at h
        rcases h with h | h
        · rw [hasPair_cons_cons, h, Bool.true_or]
        · have hs : hasPair a b (squeezeUnderscores (d :: rest)) = true := by
            rw [hsq, hy]
            exact h
          have := hasPair_squeeze_sub a b (d :: rest) hs
          rw [hasPair_cons_cons, this, Bool.or_true]

theorem squeeze_no_double : ∀ l : List Char, hasPair '_' '_' (squeezeUnderscores l) = false
  | [] => rfl
  | [c] => rfl
  | c :: d :: rest => by
    rw [squeezeUnderscores]
    split_ifs with hc
    · exact squeeze_no_double (d :: rest)
    · have ht := head?_squeeze (d :: rest)
      cases hsq : squeezeUnderscores (d :: rest) with
      | nil => rfl
      | cons y u =>
        rw [hsq] at ht
        have hy : y = d := by
          have hyd : some y = some d := ht
          exact Option.some.inj hyd
        rw [hasPair_cons_cons, Bool.or_eq_false_iff]
        constructor
        · apply decide_eq_false
          rw [hy]
          exact hc
        · have := squeeze_no_double (d :: rest)
          rw [hsq] at this
          exact this

theorem squeeze_fix : ∀ l : List Char, hasPair '_' '_' l = false → squeezeUnderscores l = l
  | [], _ => rfl
  | [c], _ => rfl
  | c :: d :: rest, h => by
    have h1 : ¬ (c = '_' ∧ d = '_') := by
      rw [hasPair_cons_cons, Bool.or_eq_false_iff] at h
      exact of_decide_eq_false h.1
    rw [squeezeUnderscores, if_neg h1, squeeze_fix (d :: rest) (hasPair_tail h)]

theorem hasPair_append_left (a b : Char) :
    ∀ (t r : List Char), hasPair a b t = true → hasPair a b (t ++ r) = true
  | [], _, h => by cases h
  | [c], _, h => by cases h
  | c :: d :: rest, r, h => by
    rw [hasPair_cons_cons, Bool.or_eq_true] at h
    rw [List.cons_append, List.cons_append, hasPair_cons_cons, ← List.cons_append]
    rcases h with h | h
    · rw [h, Bool.true_or]
    · rw [hasPair_append_left a b (d :: rest) r h, Bool.or_true]

theorem hasPair_append_right (a b : Char) :
    ∀ (t r : List Char), hasPair a b r = true → hasPair a b (t ++ r) = true
  | [], _, h => h
  | c :: t', r, h => by
    have ih := hasPair_append_right a b t' r h
    rw [List.cons_append]
    cases htr : t' ++ r with
    | nil =>
      rw [htr] at ih
      cases ih
    | cons y u =>
      rw [htr] at ih
      rw [hasPair_cons_cons, ih, Bool.or_true]

theorem head?_dropWhile_underscore :
    ∀ (l : List Char) (x : Char),
      (l.dropWhile fun c => c = '_').head? = some x → x ≠ '_'
  | [], x => by intro h; cases h
  | c :: cs, x => by
    rw [List.dropWhile_cons]
    split_ifs with hc
    · exact head?_dropWhile_underscore cs x
    · intro h
      have hcx : c = x := Option.some.inj h
      simp only [decide_eq_true_eq] at hc
      exact fun hx => hc (hcx.symm ▸ hx ▸ rfl)

theorem rev_take_drop (p : Char → Bool) (m : List Char) :
    m = (m.reverse.dropWhile p).reverse ++ (m.reverse.takeWhile p).reverse := by
  conv_lhs => rw [← List.reverse_reverse m, ← List.takeWhile_append_dropWhile p m.reverse]
  rw [List.reverse_append]

theorem strip_decomp (l : List Char) :
    (l.dropWhile fun c => c = '_') =
      stripUnderscores l ++
        ((l.dropWhile fun c => c = '_').reverse.takeWhile fun c => c = '_').reverse :=
  rev_take_drop _ _

theorem mem_of_mem_strip {x : Char} {l : List Char}
    (h : x ∈ stripUnderscores l) : x ∈ l := by
  have h1 : x ∈ (l.dropWhile fun c => c = '_') := by
    rw [strip_decomp l]
    exact List.mem_append_left _ h
  have h2 : l = (l.takeWhile fun c => c = '_') ++ (l.dropWhile fun c => c = '_') :=
    (List.takeWhile_append_dropWhile _ _).symm
  rw [h2]
  exact List.mem_append_right _ h1

theorem hasPair_strip_sub (a b : Char) (l : List Char)
    (h : hasPair a b (stripUnderscores l) = true) : hasPair a b l = true := by
  have h3 : hasPair a b (l.dropWhile fun c => c = '_') = true := by
    rw [strip_decomp l]
    exact hasPair_append_left a b _ _ h
  have h4 : l = (l.takeWhile fun c => c = '_') ++ (l.dropWhile fun c => c = '_') :=
    (List.takeWhile_append_dropWhile _ _).symm
  rw [h4]
  exact hasPair_append_right a b _ _ h3

theorem strip_head_ne (l : List Char) (x : Char)
    (h : (stripUnderscores l).head? = some x) : x ≠ '_' := by
  apply head?_dropWhile_underscore l x
  rw [strip_decomp l]
  cases hs : stripUnderscores l with
  | nil => rw [hs] at h; cases h
  | cons y u =>
    rw [hs] at h
    have hyx : y = x := Option.some.inj h
    rw [List.cons_append]
    exact congrArg some hyx

theorem strip_getLast_ne (l : List Char) (x : Char)
    (h : (stripUnderscores l).getLast? = some x) : x ≠ '_' := by
  unfold stripUnderscores at h
  rw [List.getLast?_reverse] at h
  exact head?_dropWhile_underscore _ x h

theorem strip_fix (l : List Char) (h1 : l.head? ≠ some '_')
    (h2 : l.getLast? ≠ some '_') : stripUnderscores l = l := by
  have d1 : (l.dropWhile fun c => c = '_') = l := by
    cases l with
    | nil => rfl
    | cons c cs =>
      rw [List.dropWhile_cons, if_neg]
      simp only [decide_eq_true_eq]
      intro hc
      exact h1 (by rw [hc]; rfl)
  have d2 : (l.reverse.dropWhile fun c => c = '_') = l.reverse := by
    cases hr : l.reverse with
    | nil => rfl
    | cons c cs =>
      have hcne : c ≠ '_' := by
        intro hc
        apply h2
        rw [← List.head?_reverse, hr, hc]
        rfl
      rw [List.dropWhile_cons, if_neg]
      simp only [decide_eq_true_eq]
      exact hcne
  unfold stripUnderscores
  rw [d1, d2, List.reverse_reverse]

theorem mem_replaceChar {x y c : Char} {l : List Char}
    (h : c ∈ replaceChar x y l) : c = y ∨ (c ∈ l ∧ c ≠ x) := by
  unfold replaceChar at h
  rcases List.mem_map.mp h with ⟨d, hd, he⟩
  by_cases hdx : d = x
  · rw [if_pos hdx] at he
    exact Or.inl he.symm
  · rw [if_neg hdx] at he
    exact Or.inr ⟨he ▸ hd, he ▸ hdx⟩

theorem replaceChar_not_mem {x y : Char} (hxy : x ≠ y) (l : List Char) :
    x ∉ replaceChar x y l := by
  intro h
  rcases mem_replaceChar h with h | h
  · exact hxy h
  · exact h.2 rfl

theorem replaceChar_fix {x y : Char} : ∀ {l : List Char}, x ∉ l → replaceChar x y l = l
  | [], _ => rfl
  | c :: cs, h => by
    have hc : c ≠ x := fun hc => h (hc ▸ List.mem_cons_self c cs)
    show (if c = x then y else c) :: replaceChar x y cs = c :: cs
    rw [if_neg hc, replaceChar_fix fun hx => h (List.mem_cons_of_mem c hx)]

theorem replaceChar_eq_char_iff {x y p : Char} (hpx : p ≠ x) (hpy : p ≠ y) (c : Char) :
    ((if c = x then y else c) = p) ↔ (c = p) := by
  by_cases hcx : c = x
  · subst hcx
    rw [if_pos rfl]
    exact ⟨fun h => absurd h.symm hpy, fun h => absurd h.symm hpx⟩
  · rw [if_neg hcx]

theorem hasPair_map_eq (p q : Char) (f : Char → Char)
    (hp : ∀ c, f c = p ↔ c = p) (hq : ∀ c, f c = q ↔ c = q) :
    ∀ l : List Char, hasPair p q (l.map f) = hasPair p q l
  | [] => rfl
  | [c] => rfl
  | c :: d :: rest => by
    have ih := hasPair_map_eq p q f hp hq (d :: rest)
    simp only [List.map_cons] at ih ⊢
    rw [hasPair_cons_cons, hasPair_cons_cons, ih]
    congr 1
    exact decide_eq_decide.mpr (and_congr (hp c) (hq d))

theorem hasPair_replaceChar {a b x y : Char}
    (hax : a ≠ x) (hay : a ≠ y) (hbx : b ≠ x) (hby : b ≠ y) (l : List Char) :
    hasPair a b (replaceChar x y l) = hasPair a b l :=
  hasPair_map_eq a b _
    (fun c => replaceChar_eq_char_iff hax hay c)
    (fun c => replaceChar_eq_char_iff hbx hby c) l

theorem mem_replaceDeg {c : Char} :
    ∀ {l : List Char}, c ∈ replaceDeg l → c ∈ l ∨ c = 'd' ∨ c = 'e' ∨ c = 'g'
  | [], h => Or.inl h
  | [x], h => Or.inl h
  | x :: y :: rest, h => by
    rw [replaceDeg] at h
    split_ifs at h with hxy
    · rcases List.mem_cons.mp h with h | h
      · exact Or.inr (Or.inl h)
      rcases List.mem_cons.mp h with h | h
      · exact Or.inr (Or.inr (Or.inl h))
      rcases List.mem_cons.mp h with h | h
      · exact Or.inr (Or.inr (Or.inr h))
      · rcases mem_replaceDeg h with h | h
        · exact Or.inl (List.mem_cons_of_mem x (List.mem_cons_of_mem y h))
        · exact Or.inr h
    · rcases List.mem_cons.mp h with h | h
      · exact Or.inl (h ▸ List.mem_cons_self x (y :: rest))
      · rcases mem_replaceDeg h with h | h
        · exact Or.inl (List.mem_cons_of_mem x h)
        · exact Or.inr h

theorem head?_replaceDeg_infty :
    ∀ {l : List Char}, (replaceDeg l).head? = some '∞' → l.head? = some '∞'
  | [], h => h
  | [c], h => h
  | c :: d :: rest, h => by
    rw [replaceDeg] at h
    split_ifs at h with hcd
    · exact absurd (Option.some.inj h) (by decide)
    · exact h

theorem hasPair_deg_replaceDeg : ∀ l : List Char, hasPair '¬' '∞' (replaceDeg l) = false
  | [] => rfl
  | [c] => rfl
  | c :: d :: rest => by
    rw [replaceDeg]
    split_ifs with hcd
    · rw [hasPair_cons_of_ne (by decide), hasPair_cons_of_ne (by decide),
        hasPair_cons_of_ne (by decide)]
      exact hasPair_deg_replaceDeg rest
    · by_cases hc : c = '¬'
      · cases ht : replaceDeg (d :: rest) with
        | nil => rfl
        | cons y u =>
          have hy : y ≠ '∞' := by
            intro hy
            have hh : (replaceDeg (d :: rest)).head? = some '∞' := by rw [ht, hy]; rfl
            have hd : d = '∞' := Option.some.inj (head?_replaceDeg_infty hh)
            exact hcd ⟨hc, hd⟩
          rw [hasPair_cons_cons, decide_eq_false fun hx => hy hx.2, Bool.false_or]
          have := hasPair_deg_replaceDeg (d :: rest)
          rw [ht] at this
          exact this
      · rw [hasPair_cons_of_ne hc]
        exact hasPair_deg_replaceDeg (d :: rest)

theorem replaceDeg_fix : ∀ {l : List Char}, hasPair '¬' '∞' l = false → replaceDeg l = l
  | [], _ => rfl
  | [c], _ => rfl
  | c :: d :: rest, h => by
    have h1 : ¬ (c = '¬' ∧ d = '∞') := by
      rw [hasPair_cons_cons, Bool.or_eq_false_iff] at h
      exact of_decide_eq_false h.1
    rw [replaceDeg, if_neg h1, replaceDeg_fix (hasPair_tail h)]

theorem not_mem_removeBracketClose (l : List Char) : ']' ∉ removeBracketClose l := by
  intro h
  have := (List.mem_filter.mp h).2
  simp at this

theorem mem_of_mem_removeBracketClose {c : Char} {l : List Char}
    (h : c ∈ removeBracketClose l) : c ∈ l :=
  (List.mem_filter.mp h).1

theorem removeBracketClose_fix {l : List Char} (h : ']' ∉ l) :
    removeBracketClose l = l :=
  List.filter_eq_self.mpr fun a ha => by
    simp only [Bool.not_eq_true']
    exact decide_eq_false fun he => h (he ▸ ha)

theorem mem_cleanName {c : Char} {l : List Char} (h : c ∈ cleanName l) :
    c = '_' ∨ c = 'd' ∨ c = 'e' ∨ c = 'g' ∨
      (c ∈ l ∧ c ≠ '[' ∧ c ≠ ']' ∧ c ≠ '/' ∧ c ≠ ' ') := by
  unfold cleanName at h
  have hc5 := mem_of_mem_squeeze (mem_of_mem_strip h)
  rcases mem_replaceChar hc5 with hu | h5
  · exact Or.inl hu
  rcases mem_replaceChar h5.1 with hu | h4
  · exact Or.inl hu
  rcases mem_replaceDeg h4.1 with h3 | hletters
  · have h2 := List.mem_filter.mp h3
    have hne : c ≠ ']' := by
      have := h2.2
      simp only [Bool.not_eq_true'] at this
      exact of_decide_eq_false this
    rcases mem_replaceChar h2.1 with hu | h1
    · exact Or.inl hu
    · exact Or.inr (Or.inr (Or.inr (Or.inr ⟨h1.1, h1.2, hne, h4.2, h5.2⟩)))
  · rcases hletters with h | h | h
    · exact Or.inr (Or.inl h)
    · exact Or.inr (Or.inr (Or.inl h))
    · exact Or.inr (Or.inr (Or.inr (Or.inl h)))

theorem cleanName_no_bad_chars (l : List Char) :
    '[' ∉ cleanName l ∧ ']' ∉ cleanName l ∧ '/' ∉ cleanName l ∧ ' ' ∉ cleanName l := by
  refine ⟨fun h => ?_, fun h => ?_, fun h => ?_, fun h => ?_⟩ <;>
    rcases mem_cleanName h with h | h | h | h | h <;>
      first
        | exact absurd h (by decide)
        | exact h.2.1 rfl
        | exact h.2.2.1 rfl
        | exact h.2.2.2.1 rfl
        | exact h.2.2.2.2 rfl

theorem cleanName_no_deg_pair (l : List Char) :
    hasPair '¬' '∞' (cleanName l) = false := by
  by_contra hne
  rw [Bool.not_eq_false] at hne
  have h6 := hasPair_strip_sub '¬' '∞' _ hne
  have h5 := hasPair_squeeze_sub '¬' '∞' _ h6
  rw [hasPair_replaceChar (by decide) (by decide) (by decide) (by decide),
    hasPair_replaceChar (by decide) (by decide) (by decide) (by decide),
    hasPair_deg_replaceDeg] at h5
  cases h5

theorem cleanName_no_double_underscore (l : List Char) :
    hasPair '_' '_' (cleanName l) = false := by
  by_contra hne
  rw [Bool.not_eq_false] at hne
  have h6 := hasPair_strip_sub '_' '_' _ hne
  rw [squeeze_no_double] at h6
  cases h6

theorem cleanName_head_ne (l : List Char) : (cleanName l).head? ≠ some '_' :=
  fun h => strip_head_ne _ _ h rfl

theorem cleanName_getLast_ne (l : List Char) : (cleanName l).getLast? ≠ some '_' :=
  fun h => strip_getLast_ne _ _ h rfl

/-- Claim C10: every normalized column name produced by the normalization in
`get_measurements` contains no `[`, no `]`, no `/`, no space, does not contain
the source's two-character degree token `¬∞`, has no two consecutive
underscores, and neither starts nor ends with an underscore. -/
theorem clean_name_normal_form (col : String) :
    '[' ∉ (clean_name col).data ∧ ']' ∉ (clean_name col).data ∧
    '/' ∉ (clean_name col).data ∧ ' ' ∉ (clean_name col).data ∧
    hasPair '¬' '∞' (clean_name col).data = false ∧
    hasPair '_' '_' (clean_name col).data = false ∧
    (clean_name col).data.head? ≠ some '_' ∧
    (clean_name col).data.getLast? ≠ some '_' := by
  have hb := cleanName_no_bad_chars col.data
  exact ⟨hb.1, hb.2.1, hb.2.2.1, hb.2.2.2, cleanName_no_deg_pair col.data,
    cleanName_no_double_underscore col.data, cleanName_head_ne col.data,
    cleanName_getLast_ne col.data⟩

theorem cleanName_idem (l : List Char) : cleanName (cleanName l) = cleanName l := by
  have hb := cleanName_no_bad_chars l
  rw [show cleanName (cleanName l) =
      stripUnderscores (squeezeUnderscores (replaceChar ' ' '_' (replaceChar '/' '_'
        (replaceDeg (removeBracketClose (replaceChar '[' '_' (cleanName l)))))))
    from rfl]
  rw [replaceChar_fix hb.1, removeBracketClose_fix hb.2.1,
    replaceDeg_fix (cleanName_no_deg_pair l), replaceChar_fix hb.2.2.1,
    replaceChar_fix hb.2.2.2, squeeze_fix _ (cleanName_no_double_underscore l),
    strip_fix _ (cleanName_head_ne l) (cleanName_getLast_ne l)]

/-- Claim C6: the column-name normalization (replace `[`, `/` and space by `_`,
delete `]`, replace the degree token by `deg`, collapse runs of underscores,
strip leading/trailing underscores) is idempotent: normalizing an
already-normalized name returns it unchanged. -/
theorem clean_name_idempotent (s : String) :
    clean_name (clean_name s) = clean_name s :=
  congrArg String.mk (cleanName_idem s.data)

theorem dictGet_dictInsert_self (k v : List Char) :
    ∀ m : List (List Char × List Char), dictGet k (dictInsert k v m) = some v
  | [] => by simp [dictInsert, dictGet]
  | (k', v') :: rest => by
    by_cases h : k' = k
    · rw [dictInsert, if_pos h, dictGet, if_pos rfl]
    · rw [dictInsert, if_neg h, dictGet, if_neg h]
      exact dictGet_dictInsert_self k v rest

theorem dictGet_dictInsert_ne (k k' v : List Char) (hne : k' ≠ k) :
    ∀ m : List (List Char × List Char), dictGet k (dictInsert k' v m) = dictGet k m
  | [] => by simp [dictInsert, dictGet, hne]
  | (k'', v'') :: rest => by
    by_cases h : k'' = k'
    · rw [dictInsert, if_pos h, dictGet, if_neg hne, dictGet, if_neg (h ▸ hne)]
    · rw [dictInsert, if_neg h]
      by_cases h2 : k'' = k
      · rw [dictGet, if_pos h2, dictGet, if_pos h2]
      · rw [dictGet, if_neg h2, dictGet, if_neg h2]
        exact dictGet_dictInsert_ne k k' v hne rest

theorem dictGet_foldl_insert (cols : List (List Char)) :
    ∀ (acc : List (List Char × List Char)), (cols.map cleanName).Nodup →
      ∀ col ∈ cols,
        dictGet (cleanName col)
          (cols.foldl (fun m c => dictInsert (cleanName c) c m) acc) = some col := by
  induction cols using List.reverseRecOn with
  | nil =>
    intro acc _ col hc
    cases hc
  | append_singleton cols c ih =>
    intro acc hnd col hcol
    rw [List.foldl_append, List.foldl_cons, List.foldl_nil]
    have hnd2 : (cols.map cleanName).Nodup ∧ cleanName c ∉ cols.map cleanName := by
      rw [List.map_append] at hnd
      rw [List.nodup_append] at hnd
      exact ⟨hnd.1, fun hmem => hnd.2.2 hmem (List.mem_singleton_self _)⟩
    rcases List.mem_append.mp hcol with hin | hc1
    · have hne : cleanName c ≠ cleanName col := fun he =>
        hnd2.2 (he ▸ List.mem_map_of_mem cleanName hin)
      rw [dictGet_dictInsert_ne _ _ _ hne]
      exact ih acc hnd2.1 col hin
    · have hcc : col = c := List.mem_singleton.mp hc1
      subst hcc
      exact dictGet_dictInsert_self _ _ _

/-- Counterexample to claim C7 as stated: the headers `A` and `A_` both
normalize to `A`, the second insertion overwrites the first in
`column_mapping`, so looking up column `A` by its normalized name returns the
other header. -/
theorem column_mapping_roundtrip_cex :
    ¬ ∀ (cols : List (List Char)), ∀ col ∈ cols,
        dictGet (cleanName col) (column_mapping cols) = some col := by
  intro hall
  have h1 : (['A'] : List Char) ∈ [['A'], ['A', '_']] := List.mem_cons_self _ _
  have h2 := hall [['A'], ['A', '_']] ['A'] h1
  have h3 : dictGet (cleanName ['A']) (column_mapping [['A'], ['A', '_']]) =
      some ['A', '_'] := by decide
  rw [h3] at h2
  exact absurd (Option.some.inj h2) (by decide)

/-- Claim C7 (amended): provided the normalized names of the table's column
headers are pairwise distinct (the uniqueness invariant the spec states is not
actively enforced), looking up a column's normalized name in the reverse
mapping built by `get_measurements` returns exactly that column's original
header text. -/
theorem column_mapping_roundtrip_of_distinct (cols : List (List Char))
    (hnd : (cols.map cleanName).Nodup) :
    ∀ col ∈ cols, dictGet (cleanName col) (column_mapping cols) = some col :=
  dictGet_foldl_insert cols [] hnd

/-- Witness for `column_mapping_roundtrip_of_distinct` on the two-column table
with headers `A` and `B`. -/
theorem column_mapping_roundtrip_of_distinct_witness :
    (([['A'], ['B']] : List (List Char)).map cleanName).Nodup ∧
    (['A'] : List Char) ∈ [['A'], ['B']] ∧
    dictGet (cleanName ['A']) (column_mapping [['A'], ['B']]) = some ['A'] :=
  ⟨by decide, by decide,
    column_mapping_roundtrip_of_distinct [['A'], ['B']] (by decide) ['A'] (by decide)⟩
